import Mathlib

/-!
Verification of the semantic context-retrieval engine of `chat_assist`
(`utils/context_search.py`).  Python text values are embedded as `List Char`,
floating point scores as `ℚ` (the comparisons and orderings the code performs
are preserved exactly), numpy / faiss / sentence-transformers behaviour is
embedded as explicit data (`FaissIndex`) or oracle parameters (`Backend`),
and Python exceptions as `Except`.
-/

set_option allowUnsafeReducibility true

attribute [semireducible] Rat.mul Rat.add Rat.sub Rat.div Rat.neg Rat.inv

deriving instance DecidableEq for Except

/-- Python text (`str`) as a list of characters. -/
abbrev PyText := List Char

/-- Python whitespace for `str.strip` / regex `\s` (ASCII fragment:
space, tab, newline, carriage return, vertical tab, form feed). -/
def pyIsSpace (c : Char) : Bool :=
  c == ' ' || c == '\t' || c == '\n' || c == '\r' || c == '\x0b' || c == '\x0c'

/-- Python `str.strip()`: drop leading and trailing whitespace. -/
def pyStrip (s : PyText) : PyText :=
  ((s.dropWhile pyIsSpace).reverse.dropWhile pyIsSpace).reverse

/-- Helper of `pyWords`: scan accumulating the current (reversed) word. -/
def pyWordsAux : List Char → List Char → List PyText
  | [], cur => if cur.isEmpty then [] else [cur.reverse]
  | c :: cs, cur =>
    if pyIsSpace c then
      if cur.isEmpty then pyWordsAux cs [] else cur.reverse :: pyWordsAux cs []
    else pyWordsAux cs (c :: cur)

/-- Python `str.split()` with no arguments: split on whitespace runs,
discarding empty fields. -/
def pyWords (s : PyText) : List PyText := pyWordsAux s []

/-- Python `" ".join(parts)`. -/
def joinSp (parts : List PyText) : PyText := List.intercalate [' '] parts

/-- Python `l[-n:]` for `n > 0`: the last `min n (length l)` elements. -/
def lastN (n : Nat) (l : List α) : List α := l.drop (l.length - n)

/-- Python list indexing `xs[i]` (negative indices count from the end);
`none` models an `IndexError`. -/
def pyGet (xs : List α) (i : Int) : Option α :=
  if 0 ≤ i then xs.get? i.toNat
  else
    let j : Int := (xs.length : Int) + i
    if 0 ≤ j then xs.get? j.toNat else none

/-- Split a character run after its last `'\n'`: returns
`(prefix ending in the last newline, rest)`, or `none` when no newline
occurs.  Used for the greedy backtracking of the regex `\n\s*\n`. -/
def splitAfterLastNl : List Char → Option (List Char × List Char)
  | [] => none
  | c :: cs =>
    match splitAfterLastNl cs with
    | some (p, s) => some (c :: p, s)
    | none => if c = '\n' then some ([c], cs) else none

/-- Scanner for `re.split(r"\n\s*\n", text)`: at each `'\n'`, the greedy
separator consumes the whitespace run up to (and including) its last
newline, provided there is a second newline; `fuel` bounds the recursion
(one unit per consumed character, so `text.length` always suffices). -/
def splitParasAux : Nat → List Char → List Char → List PyText
  | _, [], cur => [cur.reverse]
  | 0, s, cur => [cur.reverse ++ s]
  | fuel + 1, c :: cs, cur =>
    if c = '\n' then
      match splitAfterLastNl (cs.takeWhile pyIsSpace) with
      | some (p, _) => cur.reverse :: splitParasAux fuel (cs.drop p.length) []
      | none => splitParasAux fuel cs (c :: cur)
    else splitParasAux fuel cs (c :: cur)

/-- `split_into_paragraphs` of `context_search.py`: strip, return `[]` for
blank text, split on blank lines (`re.split(r"\n\s*\n", …)`), strip each
paragraph and drop the whitespace-only ones. -/
def split_into_paragraphs (text : PyText) : List PyText :=
  let t := pyStrip text
  if t.isEmpty then []
  else ((splitParasAux t.length t []).map pyStrip).filter (fun p => ¬p.isEmpty)

/-- Scanner for `re.split(r'(?<=[.!?])\s+', paragraph)`: a maximal
whitespace run immediately preceded by `.`, `!` or `?` is a separator.
`prev` is the previously consumed character; `fuel` as in
`splitParasAux`. -/
def splitSentencesAux : Nat → Option Char → List Char → List Char → List PyText
  | _, _, [], cur => [cur.reverse]
  | 0, _, s, cur => [cur.reverse ++ s]
  | fuel + 1, prev, c :: cs, cur =>
    if pyIsSpace c ∧ (prev = some '.' ∨ prev = some '!' ∨ prev = some '?') then
      cur.reverse :: splitSentencesAux fuel (some c) (cs.dropWhile pyIsSpace) []
    else splitSentencesAux fuel (some c) cs (c :: cur)

/-- `split_paragraph_into_sentences` of `context_search.py`: strip, return
`[]` for blank input, split on sentence-terminal punctuation followed by
whitespace (punctuation kept by the lookbehind), strip the pieces and drop
empty ones. -/
def split_paragraph_into_sentences (paragraph : PyText) : List PyText :=
  let t := pyStrip paragraph
  if t.isEmpty then []
  else ((splitSentencesAux t.length none t []).map pyStrip).filter (fun s => ¬s.isEmpty)

/-- Loop state of `create_contextual_chunks`: the chunks emitted so far
(shared across paragraphs), the sentences/overlap words of the running
chunk, and its tracked word count. -/
structure ChunkAcc where
  allChunks : List PyText
  current : List PyText
  curLen : Nat
deriving DecidableEq

/-- One iteration of the sentence loop of `create_contextual_chunks`:
if adding the sentence would exceed `maxW`, flush the running chunk and
seed the next one with the last `overlap` words; then append the
sentence. -/
def stepSent (maxW overlap : Nat) (st : ChunkAcc) (sent : PyText) : ChunkAcc :=
  let w := (pyWords sent).length
  let st1 :=
    if ¬st.current.isEmpty ∧ maxW < st.curLen + w then
      let chunkText := joinSp st.current
      if 0 < overlap then
        let ow := lastN overlap (pyWords chunkText)
        ⟨st.allChunks ++ [chunkText], ow, ow.length⟩
      else ⟨st.allChunks ++ [chunkText], [], 0⟩
    else st
  ⟨st1.allChunks, st1.current ++ [sent], st1.curLen + w⟩

/-- Per-paragraph body of `create_contextual_chunks`: run the sentence
loop from a fresh running chunk, then flush the residue only when it
reaches `minW` words. -/
def processParagraph (maxW minW overlap : Nat) (acc : List PyText) (paragraph : PyText) :
    List PyText :=
  let st := (split_paragraph_into_sentences paragraph).foldl (stepSent maxW overlap) ⟨acc, [], 0⟩
  if ¬st.current.isEmpty ∧ minW ≤ st.curLen then st.allChunks ++ [joinSp st.current]
  else st.allChunks

/-- `create_contextual_chunks(text, max_words_per_chunk, min_words_per_chunk,
overlap)` of `context_search.py`. -/
def create_contextual_chunks (text : PyText) (maxW minW overlap : Nat) : List PyText :=
  (split_into_paragraphs text).foldl (processParagraph maxW minW overlap) []

/-- An embedding vector (one row of the numpy matrices); scores computed
from it are rationals, preserving the comparisons the code performs. -/
abbrev QVec := List ℚ

/-- Inner product of two vectors (`faiss.IndexFlatIP` scoring). -/
def dotQ (a b : QVec) : ℚ := (List.zipWith (· * ·) a b).sum

/-- Largest finite 32-bit float, written out as the numeral
`2^128 - 2^104`; faiss pads missing inner-product hits with score
`-FLT_MAX` and label `-1`. -/
def FLT_MAX : ℚ := 340282346638528859811704183484516925440

/-- Insert `x` into `l` keeping every `y` with `le y x` in front of it
(the stable insertion step of `sortByLe`). -/
def insStep (le : α → α → Bool) (x : α) : List α → List α
  | [] => [x]
  | y :: ys => if le y x then y :: insStep le x ys else x :: y :: ys

/-- Stable insertion sort with respect to the boolean relation `le`
("may come before"); models Python's stable `list.sort`. -/
def sortByLe (le : α → α → Bool) (l : List α) : List α :=
  l.foldl (fun acc x => insStep le x acc) []

/-- Exact brute-force search of `faiss.IndexFlatIP`: score every stored
vector against the query by inner product, sort descending and take `k`,
padding to exactly `k` entries with `(-FLT_MAX, -1)` when fewer vectors
are stored. -/
def faissSearch (vecs : List QVec) (q : QVec) (k : Nat) : List (ℚ × Int) :=
  let scored := (List.range vecs.length).map fun j => (dotQ q (vecs.getD j []), (j : Int))
  let top := (sortByLe (fun p p' => decide (p'.1 ≤ p.1)) scored).take k
  top ++ List.replicate (k - top.length) (-FLT_MAX, -1)

/-- Helper of `toBatches`, structural in `fuel` so that concrete values
reduce; `fuel = l.length` always suffices for a positive batch size. -/
def toBatchesAux (bs : Nat) : Nat → List α → List (List α)
  | _, [] => []
  | 0, l => [l]
  | fuel + 1, l => l.take bs :: toBatchesAux bs fuel (l.drop bs)

/-- The batching loop `for i in range(0, len(chunks), batch_size)` with
slices `chunks[i : i + batch_size]`. -/
def toBatches (bs : Nat) (l : List α) : List (List α) := toBatchesAux bs l.length l

/-- Handle to a loaded `SentenceTransformer` model (its behaviour lives in
`Backend`). -/
abbrev SModel := Unit

/-- The faiss index built by `_create_faiss_index`: the stored
(normalized) embedding rows. -/
structure FaissIndex where
  vecs : List QVec
deriving DecidableEq

/-- `index.ntotal`: number of stored vectors. -/
def FaissIndex.ntotal (i : FaissIndex) : Nat := i.vecs.length

/-- Oracle for the external embedding stack: `mkModel` models the
`SentenceTransformer(...)` constructor, `encode` a `model.encode(batch)`
call (errors model raised exceptions), and `nrm` the row normalization
`v / np.linalg.norm(v)` (kept abstract because it needs a square root). -/
structure Backend where
  mkModel : Except String SModel
  encode : List PyText → Except String (List QVec)
  nrm : QVec → QVec

/-- The embedding loop of `_create_faiss_index`: encode the batches in
order, collecting `all_embeddings`; the first raised exception aborts the
loop. -/
def encodeBatches (B : Backend) : List (List PyText) → Except String (List (List QVec))
  | [] => .ok []
  | b :: bs =>
    match B.encode b with
    | .error e => .error e
    | .ok vs =>
      match encodeBatches B bs with
      | .error e => .error e
      | .ok rest => .ok (vs :: rest)

/-- A row of the result dictionaries returned by `ContextSearch.query`. -/
structure QueryResult where
  score : ℚ
  chunk : PyText
  index : Int
deriving DecidableEq

/-- State of a `ContextSearch` instance.  `model` and `index` are doubly
optional: the outer `none` means the attribute was never assigned (the
constructor's `except` path runs before the `self.model = None` lines, so
a later read raises `AttributeError`); the inner layer is Python `None`. -/
structure ContextSearch where
  top_k : Nat
  score_threshold : ℚ
  document : PyText
  chunks : List PyText
  model : Option (Option SModel)
  index : Option (Option FaissIndex)
deriving DecidableEq

/-- The result loop of `ContextSearch.query`: keep the hits whose score
reaches the threshold, looking their chunk up by (Python) index; a failed
lookup models the `IndexError` the `except` clause would catch. -/
def collectResults (chunks : List PyText) (th : ℚ) :
    List (ℚ × Int) → Except String (List QueryResult)
  | [] => .ok []
  | (s, i) :: rest =>
    if th ≤ s then
      match pyGet chunks i with
      | none => .error "IndexError"
      | some c =>
        match collectResults chunks th rest with
        | .error e => .error e
        | .ok rs => .ok (⟨s, c, i⟩ :: rs)
    else collectResults chunks th rest

/-- Python values accepted (or not) as the `file_content` argument:
`None`, `str`, `bytes`, or any other type. -/
inductive FileContent where
  | pynone : FileContent
  | str (s : PyText) : FileContent
  | bytes (b : List Nat) : FileContent
  | other : FileContent

namespace ContextSearch

/-- `ContextSearch._load_document`: `None` becomes `""`; `bytes` are
decoded as UTF-8 (oracle `utf8`), falling back to pdfplumber text
extraction (oracle `pdf`), raising `ValueError` when both fail; `str`
passes through; any other type raises `ValueError`.  The oracles return
`none` where the library call raises. -/
def _load_document (utf8 pdf : List Nat → Option PyText) :
    FileContent → Except String PyText
  | .pynone => .ok []
  | .bytes b =>
    match utf8 b with
    | some s => .ok s
    | none =>
      match pdf b with
      | some s => .ok s
      | none => .error "File content must be UTF-8 text or a readable PDF."
  | .str s => .ok s
  | .other => .error "File content must be string or bytes."

/-- `ContextSearch._create_chunks`: empty for blank documents, otherwise
`create_contextual_chunks` with the engine's fixed configuration
(`max_words_per_chunk=80`, `min_words_per_chunk=10`, `overlap=10`). -/
def _create_chunks (document : PyText) : List PyText :=
  if (pyStrip document).isEmpty then []
  else create_contextual_chunks document 80 10 10

/-- `ContextSearch.__init__`: stores `top_k` and `score_threshold`, then
loads the document and chunks it inside a `try`; on any exception the
`except` branch logs and degrades to an empty document with no chunks
(note that `self.model` / `self.index` are then never assigned). -/
def init (utf8 pdf : List Nat → Option PyText) (fc : FileContent)
    (top_k : Nat) (score_threshold : ℚ) : ContextSearch :=
  match _load_document utf8 pdf fc with
  | .ok doc =>
    { top_k, score_threshold, document := doc, chunks := _create_chunks doc,
      model := some none, index := some none }
  | .error _ =>
    { top_k, score_threshold, document := [], chunks := [],
      model := none, index := none }

/-- `ContextSearch._create_faiss_index`: returns the (possibly) updated
`self.model` attribute and the built index (`none` models the `return
None` paths).  Chunks are embedded in batches of 32, stacked, row
normalized and added to a flat inner-product index; every exception in
the `try` is caught and yields `none`. -/
def _create_faiss_index (B : Backend) (chunks : List PyText)
    (modelAttr : Option (Option SModel)) :
    Option (Option SModel) × Option FaissIndex :=
  if chunks.isEmpty then (modelAttr, none)
  else
    match modelAttr with
    | none => (none, none)
    | some mo =>
      match (match mo with
             | some m => Except.ok m
             | none => B.mkModel : Except String SModel) with
      | .error _ => (modelAttr, none)
      | .ok m =>
        match encodeBatches B (toBatches 32 chunks) with
        | .error _ => (some (some m), none)
        | .ok embs => (some (some m), some ⟨embs.flatten.map B.nrm⟩)

/-- `ContextSearch._ensure_index`: build the index if the attribute holds
`None`; reading an unassigned attribute raises `AttributeError` (the
constructor's degraded path), which nothing here catches. -/
def _ensure_index (B : Backend) (st : ContextSearch) : Except String ContextSearch :=
  match st.index with
  | none => .error "AttributeError: index"
  | some none =>
    let p := _create_faiss_index B st.chunks st.model
    .ok { st with model := p.1, index := some p.2 }
  | some (some _) => .ok st

/-- `ContextSearch.query(query, top_k)`: return `[]` for blank queries;
ensure the index (propagating the `AttributeError` of a degraded
instance); return `[]` when index or chunks are unavailable; then, inside
a `try` whose `except` returns `[]`: lazily load the model, embed and
normalize the query, search the index with `top_k`, keep hits that reach
`score_threshold`, and sort the results by descending score (Python's
stable sort with `reverse=True`). -/
def query (B : Backend) (st : ContextSearch) (q : PyText) (tk? : Option Nat) :
    Except String (List QueryResult × ContextSearch) :=
  if (pyStrip q).isEmpty then .ok ([], st)
  else
    match _ensure_index B st with
    | .error e => .error e
    | .ok st1 =>
      match st1.index with
      | none => .error "AttributeError: index"
      | some none => .ok ([], st1)
      | some (some idx) =>
        if st1.chunks.isEmpty then .ok ([], st1)
        else
          let k := tk?.getD st1.top_k
          match st1.model with
          | none => .ok ([], st1)
          | some mo =>
            match (match mo with
                   | some m => Except.ok m
                   | none => B.mkModel : Except String SModel) with
            | .error _ => .ok ([], st1)
            | .ok _ =>
              let st2 : ContextSearch := { st1 with model := some (some ()) }
              match B.encode [q] with
              | .error _ => .ok ([], st2)
              | .ok qrows =>
                match (qrows.map B.nrm).head? with
                | none => .ok ([], st2)
                | some qv =>
                  let pairs := faissSearch idx.vecs qv k
                  match collectResults st2.chunks st2.score_threshold pairs with
                  | .error _ => .ok ([], st2)
                  | .ok res =>
                    .ok (sortByLe (fun r r' => decide (r'.score ≤ r.score)) res, st2)

end ContextSearch

/-- Modelled from the spec: a window interval of §4.4 step 5 /
`MergedInterval` of §3; the windowing and interval-merging step of the
retriever is not present in the files under `src/`. -/
structure WindowInterval where
  startId : Nat
  endId : Nat
  score : ℚ
  matched : Finset ℕ
deriving DecidableEq

/-- Modelled from the spec: for a surviving hit at chunk id `i`, the
window interval `[max(0, i-window), min(n-1, i+window)]` tagged with
matched set `{i}` and the hit's score (§4.4 step 5; `i - window`
truncates at 0 in `ℕ`). -/
def windowInterval (n window i : Nat) (score : ℚ) : WindowInterval :=
  ⟨i - window, min (n - 1) (i + window), score, {i}⟩

/-- Modelled from the spec: coalesce two overlapping or adjacent
intervals — bounds `min`/`max`, score `max` (the defined tie-break
policy), matched set union (§4.4 step 6). -/
def coalesce (a b : WindowInterval) : WindowInterval :=
  ⟨min a.startId b.startId, max a.endId b.endId, max a.score b.score, a.matched ∪ b.matched⟩

/-- Modelled from the spec: one merging step over intervals taken in
ascending order of start — absorb `w` into the open interval when
`w.startId ≤ cur.endId + 1`, otherwise emit the open interval. -/
def mergeStep (acc : List WindowInterval × Option WindowInterval) (w : WindowInterval) :
    List WindowInterval × Option WindowInterval :=
  match acc.2 with
  | none => (acc.1, some w)
  | some cur =>
    if w.startId ≤ cur.endId + 1 then (acc.1, some (coalesce cur w))
    else (acc.1 ++ [cur], some w)

/-- Modelled from the spec: merge overlapping or adjacent intervals
(`next.start ≤ prev.end + 1`) in ascending order of start (§4.4 step 6). -/
def mergeIntervals (l : List WindowInterval) : List WindowInterval :=
  match l.foldl mergeStep ([], none) with
  | (done, none) => done
  | (done, some cur) => done ++ [cur]

/-- Modelled from the spec: steps 4–6 of the retriever (§4.4) — drop hits
below the threshold, expand each survivor at chunk id `i` to its window
interval, sort by start and merge; the hits are `(chunkId, score)`
pairs. -/
def specExpandAndMerge (n window : Nat) (threshold : ℚ) (hits : List (Nat × ℚ)) :
    List WindowInterval :=
  let surviving := hits.filter fun h => threshold ≤ h.2
  let wins := surviving.map fun h => windowInterval n window h.1 h.2
  mergeIntervals (sortByLe (fun w w' => decide (w.startId ≤ w'.startId)) wins)


/-- Total number of whitespace-delimited words of a list of sentences
(the quantity `current_length` tracks while no flush happens). -/
def wordSumS (ss : List PyText) : Nat := (ss.map fun s => (pyWords s).length).sum

/-- Total word count of a paragraph, summed over its sentence split. -/
def paraWordSum (p : PyText) : Nat := wordSumS (split_paragraph_into_sentences p)

/-- Decode oracle that always fails (models bytes that are neither valid
UTF-8 nor a readable PDF, or an unavailable decoder). -/
def decodeFail : List Nat → Option PyText := fun _ => none

/-- PDF-extraction oracle that extracts the text `"x"` from any bytes. -/
def pdfYieldsX : List Nat → Option PyText := fun _ => some ['x']

/-- Backend whose batch-encoding call always raises. -/
def backendEncodeFail : Backend := ⟨.ok (), fun _ => .error "boom", id⟩

/-- Backend embedding every text to the one-dimensional vector `[1]`. -/
def backendOnes : Backend := ⟨.ok (), fun ts => .ok (ts.map fun _ => [1]), id⟩

/-- Backend embedding a text to the vector `[length]`. -/
def backendLen : Backend := ⟨.ok (), fun ts => .ok (ts.map fun t => [(t.length : ℚ)]), id⟩

/-- An engine state whose index is already built over two chunks. -/
def stReady : ContextSearch :=
  ⟨5, 1/2, ['d'], [['a'], ['b']], some (some ()), some (some ⟨[[1], [0]]⟩)⟩

/-- A freshly constructed engine state (model and index not yet
materialized). -/
def stFresh : ContextSearch := ⟨5, 1/2, ['d'], [['a'], ['b']], some none, some none⟩

/-- A built one-chunk engine whose score threshold equals the faiss
padding score `-FLT_MAX`, with `top_k` exceeding the vector count. -/
def stLowTh : ContextSearch :=
  ⟨2, -FLT_MAX, ['d'], [['a']], some (some ()), some (some ⟨[[1]]⟩)⟩

/-- A ten-word one-sentence document, used to exercise the chunker. -/
def shortDocTen : PyText := "one two three four five six seven eight nine ten.".toList

theorem mem_insStep {le : α → α → Bool} {x a : α} {l : List α} :
    a ∈ insStep le x l ↔ a = x ∨ a ∈ l := by
  induction l with
  | nil => simp [insStep]
  | cons y ys ih =>
    by_cases h : le y x <;> (simp [insStep, h, ih]; try tauto)

theorem length_insStep {le : α → α → Bool} {x : α} {l : List α} :
    (insStep le x l).length = l.length + 1 := by
  induction l with
  | nil => simp [insStep]
  | cons y ys ih =>
    by_cases h : le y x <;> simp [insStep, h, ih]

theorem pairwise_insStep {le : α → α → Bool}
    (htot : ∀ a b, le a b = true ∨ le b a = true)
    (htr : ∀ a b c, le a b = true → le b c = true → le a c = true)
    {x : α} {l : List α} (hl : l.Pairwise fun a b => le a b = true) :
    (insStep le x l).Pairwise fun a b => le a b = true := by
  induction l with
  | nil => simp [insStep]
  | cons y ys ih =>
    rcases List.pairwise_cons.mp hl with ⟨hy, hys⟩
    by_cases h : le y x
    · simp only [insStep, h, if_true]
      refine List.pairwise_cons.mpr ⟨?_, ih hys⟩
      intro z hz
      rcases mem_insStep.mp hz with rfl | hz
      · exact h
      · exact hy z hz
    · simp only [insStep, h, if_false]
      refine List.pairwise_cons.mpr ⟨?_, hl⟩
      intro z hz
      rcases List.mem_cons.mp hz with rfl | hz
      · rcases htot z x with h' | h'
        · exact absurd h' (by simpa using h)
        · exact h'
      · have hxy : le x y = true := by
          rcases htot x y with h' | h'
          · exact h'
          · exact absurd h' (by simpa using h)
        exact htr x y z hxy (hy z hz)

theorem mem_foldl_insStep {le : α → α → Bool} {a : α} (l : List α) :
    ∀ acc, (a ∈ l.foldl (fun acc x => insStep le x acc) acc ↔ a ∈ acc ∨ a ∈ l) := by
  induction l with
  | nil => simp
  | cons x xs ih =>
    intro acc
    rw [List.foldl_cons, ih]
    simp [mem_insStep]
    tauto

theorem mem_sortByLe {le : α → α → Bool} {a : α} {l : List α} :
    a ∈ sortByLe le l ↔ a ∈ l := by
  rw [sortByLe, mem_foldl_insStep]
  simp

theorem length_foldl_insStep {le : α → α → Bool} (l : List α) :
    ∀ acc, (l.foldl (fun acc x => insStep le x acc) acc).length = acc.length + l.length := by
  induction l with
  | nil => simp
  | cons x xs ih =>
    intro acc
    rw [List.foldl_cons, ih, length_insStep, List.length_cons]
    omega

theorem length_sortByLe {le : α → α → Bool} {l : List α} :
    (sortByLe le l).length = l.length := by
  rw [sortByLe, length_foldl_insStep]
  simp

theorem pairwise_foldl_insStep {le : α → α → Bool}
    (htot : ∀ a b, le a b = true ∨ le b a = true)
    (htr : ∀ a b c, le a b = true → le b c = true → le a c = true)
    (l : List α) :
    ∀ acc, acc.Pairwise (fun a b => le a b = true) →
      (l.foldl (fun acc x => insStep le x acc) acc).Pairwise fun a b => le a b = true := by
  induction l with
  | nil => intro acc h; simpa using h
  | cons x xs ih =>
    intro acc h
    rw [List.foldl_cons]
    exact ih _ (pairwise_insStep htot htr h)

theorem pairwise_sortByLe {le : α → α → Bool}
    (htot : ∀ a b, le a b = true ∨ le b a = true)
    (htr : ∀ a b c, le a b = true → le b c = true → le a c = true)
    (l : List α) :
    (sortByLe le l).Pairwise fun a b => le a b = true :=
  pairwise_foldl_insStep htot htr l [] (by simp)

theorem length_faissSearch {vecs : List QVec} {q : QVec} {k : Nat} :
    (faissSearch vecs q k).length = k := by
  simp only [faissSearch, List.length_append, List.length_replicate, List.length_take]
  have := @length_sortByLe (ℚ × Int) (fun p p' => decide (p'.1 ≤ p.1))
    ((List.range vecs.length).map fun j => (dotQ q (vecs.getD j []), (j : Int)))
  omega

theorem mem_faissSearch {vecs : List QVec} {q : QVec} {k : Nat} {p : ℚ × Int}
    (hp : p ∈ faissSearch vecs q k) :
    (0 ≤ p.2 ∧ p.2.toNat < vecs.length) ∨ (p.1 = -FLT_MAX ∧ p.2 = -1) := by
  rcases List.mem_append.mp hp with h | h
  · left
    have h' := mem_sortByLe.mp (List.take_subset _ _ h)
    rcases List.mem_map.mp h' with ⟨j, hj, hpj⟩
    have hjlt := List.mem_range.mp hj
    cases hpj
    exact ⟨by positivity, by simpa using hjlt⟩
  · right
    have := List.eq_of_mem_replicate h
    simp [this]

theorem collectResults_length {chunks : List PyText} {th : ℚ} :
    ∀ {pairs : List (ℚ × Int)} {res : List QueryResult},
      collectResults chunks th pairs = .ok res → res.length ≤ pairs.length := by
  intro pairs
  induction pairs with
  | nil => intro res h; cases h; simp
  | cons p rest ih =>
    intro res h
    rw [collectResults] at h
    by_cases hth : th ≤ p.1
    · rw [if_pos hth] at h
      cases hg : pyGet chunks p.2 with
      | none => rw [hg] at h; cases h
      | some c =>
        rw [hg] at h
        cases hr : collectResults chunks th rest with
        | error e => rw [hr] at h; cases h
        | ok rs =>
          rw [hr] at h
          cases h
          have := ih hr
          simp only [List.length_cons]
          omega
    · rw [if_neg hth] at h
      have := ih h
      simp only [List.length_cons]
      omega

theorem collectResults_mem {chunks : List PyText} {th : ℚ} :
    ∀ {pairs : List (ℚ × Int)} {res : List QueryResult},
      collectResults chunks th pairs = .ok res →
      ∀ r ∈ res, th ≤ r.score ∧
        ∃ p ∈ pairs, p.1 = r.score ∧ p.2 = r.index ∧ pyGet chunks p.2 = some r.chunk := by
  intro pairs
  induction pairs with
  | nil => intro res h; cases h; intro r hr; cases hr
  | cons p rest ih =>
    intro res h
    rw [collectResults] at h
    by_cases hth : th ≤ p.1
    · rw [if_pos hth] at h
      cases hg : pyGet chunks p.2 with
      | none => rw [hg] at h; cases h
      | some c =>
        rw [hg] at h
        cases hr : collectResults chunks th rest with
        | error e => rw [hr] at h; cases h
        | ok rs =>
          rw [hr] at h
          cases h
          intro r hmem
          rcases List.mem_cons.mp hmem with rfl | hmem
          · exact ⟨hth, p, List.mem_cons_self _ _, rfl, rfl, hg⟩
          · rcases ih hr r hmem with ⟨h1, p', hp', h2⟩
            exact ⟨h1, p', List.mem_cons_of_mem _ hp', h2⟩
    · rw [if_neg hth] at h
      intro r hmem
      rcases ih h r hmem with ⟨h1, p', hp', h2⟩
      exact ⟨h1, p', List.mem_cons_of_mem _ hp', h2⟩

theorem flatten_toBatchesAux {bs : Nat} :
    ∀ (fuel : Nat) (l : List α), (toBatchesAux bs fuel l).flatten = l := by
  intro fuel
  induction fuel with
  | zero => intro l; cases l <;> simp [toBatchesAux]
  | succ f ih =>
    intro l
    cases l with
    | nil => simp [toBatchesAux]
    | cons x xs =>
      rw [toBatchesAux, List.flatten_cons, ih, List.take_append_drop]
      simp

theorem flatten_toBatches {bs : Nat} {l : List α} : (toBatches bs l).flatten = l :=
  flatten_toBatchesAux l.length l

theorem toBatches_ne_nil {bs : Nat} {l : List α} (h : ¬l.isEmpty) :
    toBatches bs l ≠ [] := by
  cases l with
  | nil => simp at h
  | cons x xs =>
    rw [toBatches, List.length_cons, toBatchesAux]
    · simp
    · simp

theorem encodeBatches_pointwise {B : Backend} {g : List PyText → List QVec}
    (hm : ∀ b, B.encode b = .ok (g b)) :
    ∀ l, encodeBatches B l = .ok (l.map g) := by
  intro l
  induction l with
  | nil => rfl
  | cons b bs ih => rw [encodeBatches, hm b, ih]; rfl

theorem encodeBatches_isOk {B : Backend}
    (hm : ∀ b, ∃ vs, B.encode b = .ok vs) :
    ∀ l, ∃ embs, encodeBatches B l = .ok embs := by
  intro l
  induction l with
  | nil => exact ⟨[], rfl⟩
  | cons b bs ih =>
    rcases hm b with ⟨vs, hvs⟩
    rcases ih with ⟨embs, hembs⟩
    exact ⟨vs :: embs, by rw [encodeBatches, hvs, hembs]⟩

theorem encodeBatches_error_of_head {B : Backend} {b : List PyText} {bs : List (List PyText)}
    {e : String} (hx : B.encode b = .error e) :
    encodeBatches B (b :: bs) = .error e := by
  rw [encodeBatches, hx]

theorem stepSent_cases (maxW ov : Nat) (st : ChunkAcc) (s : PyText) :
    stepSent maxW ov st s
      = ⟨st.allChunks, st.current ++ [s], st.curLen + (pyWords s).length⟩ ∨
    (stepSent maxW ov st s).allChunks = st.allChunks ++ [joinSp st.current] := by
  rw [stepSent]
  by_cases h : ¬st.current.isEmpty ∧ maxW < st.curLen + (pyWords s).length
  · right
    rw [if_pos h]
    by_cases ho : 0 < ov
    · rw [if_pos ho]
    · rw [if_neg ho]
  · left
    rw [if_neg h]

theorem stepSent_allChunks_mono (maxW ov : Nat) (st : ChunkAcc) (s : PyText) :
    ∃ t, (stepSent maxW ov st s).allChunks = st.allChunks ++ t := by
  rcases stepSent_cases maxW ov st s with h | h
  · exact ⟨[], by rw [h, List.append_nil]⟩
  · exact ⟨[joinSp st.current], h⟩

theorem foldl_stepSent_mono (maxW ov : Nat) (ss : List PyText) :
    ∀ st : ChunkAcc, ∃ t, (ss.foldl (stepSent maxW ov) st).allChunks = st.allChunks ++ t := by
  induction ss with
  | nil => intro st; exact ⟨[], by simp⟩
  | cons s rest ih =>
    intro st
    rw [List.foldl_cons]
    rcases ih (stepSent maxW ov st s) with ⟨t2, h2⟩
    rcases stepSent_allChunks_mono maxW ov st s with ⟨t1, h1⟩
    exact ⟨t1 ++ t2, by rw [h2, h1, List.append_assoc]⟩

theorem foldl_stepSent_no_flush (maxW ov : Nat) (ss : List PyText) :
    ∀ st : ChunkAcc, (ss.foldl (stepSent maxW ov) st).allChunks = st.allChunks →
      (ss.foldl (stepSent maxW ov) st).curLen = st.curLen + wordSumS ss ∧
      (ss.foldl (stepSent maxW ov) st).current = st.current ++ ss := by
  induction ss with
  | nil => intro st h; simp [wordSumS]
  | cons s rest ih =>
    intro st h
    rw [List.foldl_cons] at h ⊢
    rcases stepSent_cases maxW ov st s with hs | hs
    · rw [hs] at h ⊢
      rcases ih _ h with ⟨h1, h2⟩
      constructor
      · rw [h1]
        simp only [wordSumS, List.map_cons, List.sum_cons]
        have : wordSumS rest = (rest.map fun s' => (pyWords s').length).sum := rfl
        rw [← this]
        omega
      · rw [h2, List.append_assoc]
        rfl
    · exfalso
      rcases foldl_stepSent_mono maxW ov rest (stepSent maxW ov st s) with ⟨t, ht⟩
      rw [ht, hs] at h
      have hlen := congrArg List.length h
      simp [List.length_append] at hlen

theorem length_processParagraph_mono (maxW minW ov : Nat) (acc : List PyText) (p : PyText) :
    acc.length ≤ (processParagraph maxW minW ov acc p).length := by
  rw [processParagraph]
  rcases foldl_stepSent_mono maxW ov (split_paragraph_into_sentences p) ⟨acc, [], 0⟩
    with ⟨t, ht⟩
  split
  · rw [List.length_append, ht]
    dsimp only
    rw [List.length_append]
    omega
  · rw [ht]
    dsimp only
    rw [List.length_append]
    omega

theorem length_processParagraph_lt (maxW minW ov : Nat) (acc : List PyText) (p : PyText)
    (hmin : 1 ≤ minW) (hsum : minW ≤ paraWordSum p) :
    acc.length < (processParagraph maxW minW ov acc p).length := by
  rw [processParagraph]
  rcases foldl_stepSent_mono maxW ov (split_paragraph_into_sentences p) ⟨acc, [], 0⟩
    with ⟨t, ht⟩
  by_cases hnil : t = []
  · have hacc : ((split_paragraph_into_sentences p).foldl (stepSent maxW ov)
        ⟨acc, [], 0⟩).allChunks = acc := by
      rw [ht, hnil, List.append_nil]
    rcases foldl_stepSent_no_flush maxW ov (split_paragraph_into_sentences p) ⟨acc, [], 0⟩
      hacc with ⟨h1, h2⟩
    have hss : split_paragraph_into_sentences p ≠ [] := by
      intro hx
      rw [paraWordSum, hx] at hsum
      simp [wordSumS] at hsum
      omega
    have hcond : ¬((split_paragraph_into_sentences p).foldl (stepSent maxW ov)
          ⟨acc, [], 0⟩).current.isEmpty ∧
        minW ≤ ((split_paragraph_into_sentences p).foldl (stepSent maxW ov)
          ⟨acc, [], 0⟩).curLen := by
      constructor
      · rw [h2]
        simpa [List.isEmpty_iff] using hss
      · rw [h1]
        simpa [paraWordSum] using hsum
    rw [if_pos hcond, List.length_append, hacc]
    simp
  · have hgrow : acc.length < (((split_paragraph_into_sentences p).foldl (stepSent maxW ov)
        ⟨acc, [], 0⟩).allChunks).length := by
      rw [ht]
      dsimp only
      rw [List.length_append]
      have : 0 < t.length := List.length_pos.mpr hnil
      omega
    split
    · rw [List.length_append]
      omega
    · exact hgrow

theorem foldl_processParagraph_mono (maxW minW ov : Nat) (ps : List PyText) :
    ∀ acc : List PyText, acc.length ≤ (ps.foldl (processParagraph maxW minW ov) acc).length := by
  induction ps with
  | nil => intro acc; simp
  | cons p rest ih =>
    intro acc
    rw [List.foldl_cons]
    exact le_trans (length_processParagraph_mono maxW minW ov acc p) (ih _)

theorem mergeIntervals_eq (l : List WindowInterval) :
    mergeIntervals l
      = (l.foldl mergeStep ([], none)).1 ++ (l.foldl mergeStep ([], none)).2.toList := by
  rw [mergeIntervals]
  rcases l.foldl mergeStep ([], none) with ⟨done, cur⟩
  cases cur <;> simp

theorem chain'_snoc_startId (done : List WindowInterval) (a b : WindowInterval)
    (h : b.startId = a.startId)
    (hc : List.Chain' (fun x y => x.endId + 1 < y.startId) (done ++ [a])) :
    List.Chain' (fun x y => x.endId + 1 < y.startId) (done ++ [b]) := by
  rcases List.chain'_append.mp hc with ⟨hd, _, hglue⟩
  refine List.chain'_append.mpr ⟨hd, List.chain'_singleton b, ?_⟩
  intro x hx y hy
  simp only [List.head?_cons, Option.mem_def, Option.some.injEq] at hy
  subst hy
  have := hglue x hx a (by simp)
  omega

theorem chain'_mergeFold :
    ∀ (l : List WindowInterval) (done : List WindowInterval) (cur : Option WindowInterval),
      (cur = none → done = []) →
      List.Chain' (fun a b => a.endId + 1 < b.startId) (done ++ cur.toList) →
      (∀ a, cur = some a → ∀ w ∈ l, a.startId ≤ w.startId) →
      List.Pairwise (fun x y => x.startId ≤ y.startId) l →
      List.Chain' (fun a b => a.endId + 1 < b.startId)
        ((l.foldl mergeStep (done, cur)).1 ++ (l.foldl mergeStep (done, cur)).2.toList) := by
  intro l
  induction l with
  | nil =>
    intro done cur _ h2 _ _
    simpa using h2
  | cons w rest ih =>
    intro done cur h1 h2 h3 h4
    rw [List.foldl_cons]
    rcases List.pairwise_cons.mp h4 with ⟨hw, hrest⟩
    cases cur with
    | none =>
      have hd : done = [] := h1 rfl
      subst hd
      have hstep : mergeStep ([], none) w = ([], some w) := rfl
      rw [hstep]
      apply ih
      · intro h; cases h
      · simp
      · intro a ha v hv
        cases ha
        exact hw v hv
      · exact hrest
    | some a =>
      by_cases hadj : w.startId ≤ a.endId + 1
      · have hstep : mergeStep (done, some a) w = (done, some (coalesce a w)) := by
          simp [mergeStep, hadj]
        rw [hstep]
        have haw : a.startId ≤ w.startId := h3 a rfl w (List.mem_cons_self _ _)
        have hstart : (coalesce a w).startId = a.startId := by
          simp only [coalesce]
          omega
        apply ih
        · intro h; cases h
        · simp only [Option.toList_some] at h2 ⊢
          exact chain'_snoc_startId done a (coalesce a w) hstart h2
        · intro b hb v hv
          cases hb
          rw [hstart]
          exact h3 a rfl v (List.mem_cons_of_mem _ hv)
        · exact hrest
      · have hstep : mergeStep (done, some a) w = (done ++ [a], some w) := by
          simp [mergeStep, hadj]
        rw [hstep]
        apply ih
        · intro h; cases h
        · simp only [Option.toList_some] at h2 ⊢
          refine List.chain'_append.mpr ⟨h2, List.chain'_singleton w, ?_⟩
          intro x hx y hy
          simp only [List.head?_cons, Option.mem_def, Option.some.injEq] at hy
          subst hy
          rw [List.getLast?_concat] at hx
          simp only [Option.mem_def, Option.some.injEq] at hx
          subst hx
          omega
        · intro b hb v hv
          cases hb
          exact hw v hv
        · exact hrest

theorem chain'_mergeIntervals (l : List WindowInterval)
    (hl : l.Pairwise fun x y => x.startId ≤ y.startId) :
    List.Chain' (fun a b => a.endId + 1 < b.startId) (mergeIntervals l) := by
  rw [mergeIntervals_eq]
  exact chain'_mergeFold l [] none (fun _ => rfl) (by simp)
    (by intro a h; cases h) hl

theorem ensure_index_fields {B : Backend} {st st1 : ContextSearch}
    (h : ContextSearch._ensure_index B st = .ok st1) :
    st1.top_k = st.top_k ∧ st1.score_threshold = st.score_threshold ∧
    st1.chunks = st.chunks ∧ ∃ io, st1.index = some io := by
  cases hidx : st.index with
  | none =>
    rw [ContextSearch._ensure_index, hidx] at h
    cases h
  | some io =>
    cases io with
    | none =>
      rw [ContextSearch._ensure_index, hidx] at h
      cases h
      exact ⟨rfl, rfl, rfl, _, rfl⟩
    | some idx =>
      rw [ContextSearch._ensure_index, hidx] at h
      cases h
      exact ⟨rfl, rfl, rfl, _, hidx⟩

theorem query_ok_inv {B : Backend} {st : ContextSearch} {q : PyText} {tk? : Option Nat}
    {res : List QueryResult} {st' : ContextSearch}
    (h : ContextSearch.query B st q tk? = .ok (res, st')) :
    res = [] ∨
    ∃ idx qv res0,
      st'.chunks = st.chunks ∧
      collectResults st.chunks st.score_threshold
        (faissSearch (FaissIndex.vecs idx) qv (tk?.getD st.top_k)) = .ok res0 ∧
      res = sortByLe (fun r r' => decide (r'.score ≤ r.score)) res0 := by
  rw [ContextSearch.query] at h
  by_cases hq : (pyStrip q).isEmpty
  · rw [if_pos hq] at h
    simp only [Except.ok.injEq, Prod.mk.injEq] at h
    exact Or.inl h.1.symm
  rw [if_neg hq] at h
  cases he : ContextSearch._ensure_index B st with
  | error e => rw [he] at h; cases h
  | ok st1 =>
    rw [he] at h
    dsimp only at h
    rcases ensure_index_fields he with ⟨htk, hth, hch, io, hio⟩
    rw [hio] at h
    cases io with
    | none =>
      dsimp only at h
      simp only [Except.ok.injEq, Prod.mk.injEq] at h
      exact Or.inl h.1.symm
    | some idx =>
      dsimp only at h
      by_cases hce : st1.chunks.isEmpty
      · rw [if_pos hce] at h
        simp only [Except.ok.injEq, Prod.mk.injEq] at h
        exact Or.inl h.1.symm
      rw [if_neg hce] at h
      cases hm : st1.model with
      | none =>
        rw [hm] at h
        dsimp only at h
        simp only [Except.ok.injEq, Prod.mk.injEq] at h
        exact Or.inl h.1.symm
      | some mo =>
        rw [hm] at h
        dsimp only at h
        cases mo with
        | none =>
          cases hb : B.mkModel with
          | error e =>
            rw [hb] at h
            dsimp only at h
            simp only [Except.ok.injEq, Prod.mk.injEq] at h
            exact Or.inl h.1.symm
          | ok m =>
            rw [hb] at h
            dsimp only at h
            cases henc : B.encode [q] with
            | error e =>
              rw [henc] at h
              dsimp only at h
              simp only [Except.ok.injEq, Prod.mk.injEq] at h
              exact Or.inl h.1.symm
            | ok qrows =>
              rw [henc] at h
              dsimp only at h
              cases hhead : (qrows.map B.nrm).head? with
              | none =>
                rw [hhead] at h
                dsimp only at h
                simp only [Except.ok.injEq, Prod.mk.injEq] at h
                exact Or.inl h.1.symm
              | some qv =>
                rw [hhead] at h
                dsimp only at h
                cases hcol : collectResults st1.chunks st1.score_threshold
                    (faissSearch (FaissIndex.vecs idx) qv (tk?.getD st1.top_k)) with
                | error e =>
                  rw [hcol] at h
                  dsimp only at h
                  simp only [Except.ok.injEq, Prod.mk.injEq] at h
                  exact Or.inl h.1.symm
                | ok res0 =>
                  rw [hcol] at h
                  dsimp only at h
                  simp only [Except.ok.injEq, Prod.mk.injEq] at h
                  rcases h with ⟨h1, h2⟩
                  refine Or.inr ⟨idx, qv, res0, ?_, ?_, h1.symm⟩
                  · rw [← h2]
                    exact hch
                  · rw [← hch, ← hth, ← htk]
                    exact hcol
        | some m =>
          dsimp only at h
          cases henc : B.encode [q] with
          | error e =>
            rw [henc] at h
            dsimp only at h
            simp only [Except.ok.injEq, Prod.mk.injEq] at h
            exact Or.inl h.1.symm
          | ok qrows =>
            rw [henc] at h
            dsimp only at h
            cases hhead : (qrows.map B.nrm).head? with
            | none =>
              rw [hhead] at h
              dsimp only at h
              simp only [Except.ok.injEq, Prod.mk.injEq] at h
              exact Or.inl h.1.symm
            | some qv =>
              rw [hhead] at h
              dsimp only at h
              cases hcol : collectResults st1.chunks st1.score_threshold
                  (faissSearch (FaissIndex.vecs idx) qv (tk?.getD st1.top_k)) with
              | error e =>
                rw [hcol] at h
                dsimp only at h
                simp only [Except.ok.injEq, Prod.mk.injEq] at h
                exact Or.inl h.1.symm
              | ok res0 =>
                rw [hcol] at h
                dsimp only at h
                simp only [Except.ok.injEq, Prod.mk.injEq] at h
                rcases h with ⟨h1, h2⟩
                refine Or.inr ⟨idx, qv, res0, ?_, ?_, h1.symm⟩
                · rw [← h2]
                  exact hch
                · rw [← hch, ← hth, ← htk]
                  exact hcol

theorem ensure_index_isOk {B : Backend} {st : ContextSearch} (hi : st.index ≠ none) :
    ∃ st1, ContextSearch._ensure_index B st = .ok st1 := by
  rw [ContextSearch._ensure_index]
  cases hidx : st.index with
  | none => exact absurd hidx hi
  | some io => cases io <;> exact ⟨_, rfl⟩

theorem query_isOk {B : Backend} {st : ContextSearch} {q : PyText} {tk? : Option Nat}
    (hi : st.index ≠ none) :
    ∃ out, ContextSearch.query B st q tk? = .ok out := by
  rw [ContextSearch.query]
  by_cases hq : (pyStrip q).isEmpty
  · rw [if_pos hq]; exact ⟨_, rfl⟩
  rw [if_neg hq]
  rcases @ensure_index_isOk B st hi with ⟨st1, he⟩
  rw [he]
  dsimp only
  rcases ensure_index_fields he with ⟨_, _, _, io, hio⟩
  rw [hio]
  cases io with
  | none => exact ⟨_, rfl⟩
  | some idx =>
    dsimp only
    repeat first
    | exact ⟨_, rfl⟩
    | split

theorem query_empty_of_encode_fail {B : Backend} {st : ContextSearch} {q : PyText}
    {tk? : Option Nat} (hi : st.index ≠ none)
    (henc : ∀ ts, ∃ e, B.encode ts = .error e) :
    ∃ st', ContextSearch.query B st q tk? = .ok ([], st') := by
  rw [ContextSearch.query]
  by_cases hq : (pyStrip q).isEmpty
  · rw [if_pos hq]; exact ⟨st, rfl⟩
  rw [if_neg hq]
  rcases @ensure_index_isOk B st hi with ⟨st1, he⟩
  rw [he]
  dsimp only
  rcases ensure_index_fields he with ⟨_, _, _, io, hio⟩
  rw [hio]
  cases io with
  | none => exact ⟨st1, rfl⟩
  | some idx =>
    dsimp only
    by_cases hce : st1.chunks.isEmpty
    · rw [if_pos hce]; exact ⟨st1, rfl⟩
    rw [if_neg hce]
    cases hm1 : st1.model with
    | none => exact ⟨st1, rfl⟩
    | some mo =>
      dsimp only
      cases mo with
      | some m =>
        dsimp only
        rcases henc [q] with ⟨e, he2⟩
        rw [he2]
        exact ⟨_, rfl⟩
      | none =>
        cases hb : B.mkModel with
        | error e2 => exact ⟨st1, rfl⟩
        | ok m =>
          dsimp only
          rcases henc [q] with ⟨e, he2⟩
          rw [he2]
          exact ⟨_, rfl⟩

theorem create_index_vecs {B : Backend} {chunks : List PyText}
    {mAttr m' : Option (Option SModel)} {idx : FaissIndex} {f : PyText → QVec}
    (hf : ∀ b, B.encode b = .ok (b.map f))
    (h : ContextSearch._create_faiss_index B chunks mAttr = (m', some idx)) :
    FaissIndex.vecs idx = chunks.map fun c => B.nrm (f c) := by
  rw [ContextSearch._create_faiss_index.eq_def] at h
  by_cases hce : chunks.isEmpty
  · rw [if_pos hce] at h
    simp at h
  rw [if_neg hce] at h
  cases mAttr with
  | none => dsimp only at h; simp at h
  | some mo =>
    dsimp only at h
    cases mo with
    | some m =>
      dsimp only at h
      rw [encodeBatches_pointwise hf (toBatches 32 chunks)] at h
      dsimp only at h
      simp only [Prod.mk.injEq, Option.some.injEq] at h
      rw [← h.2]
      show ((toBatches 32 chunks).map fun b => b.map f).flatten.map B.nrm
        = chunks.map fun c => B.nrm (f c)
      rw [← List.map_flatten, flatten_toBatches, List.map_map]
      rfl
    | none =>
      cases hb : B.mkModel with
      | error e =>
        rw [hb] at h
        dsimp only at h
        simp at h
      | ok m =>
        rw [hb] at h
        dsimp only at h
        rw [encodeBatches_pointwise hf (toBatches 32 chunks)] at h
        dsimp only at h
        simp only [Prod.mk.injEq, Option.some.injEq] at h
        rw [← h.2]
        show ((toBatches 32 chunks).map fun b => b.map f).flatten.map B.nrm
          = chunks.map fun c => B.nrm (f c)
        rw [← List.map_flatten, flatten_toBatches, List.map_map]
        rfl

theorem ensure_index_builds {B : Backend} {st : ContextSearch} {m : SModel}
    (hio : st.index = some none) (hmo : st.model = some none)
    (hch : ¬st.chunks.isEmpty) (hb : B.mkModel = .ok m)
    (henc : ∀ ts, ∃ vs, B.encode ts = .ok vs) :
    ∃ idx, ContextSearch._ensure_index B st
      = .ok { st with model := some (some m), index := some (some idx) } := by
  rcases encodeBatches_isOk henc (toBatches 32 st.chunks) with ⟨embs, hembs⟩
  have hc : ContextSearch._create_faiss_index B st.chunks st.model
      = (some (some m), some ⟨embs.flatten.map B.nrm⟩) := by
    rw [ContextSearch._create_faiss_index.eq_def, if_neg hch, hmo]
    dsimp only
    rw [hb]
    dsimp only
    rw [hembs]
  rw [ContextSearch._ensure_index, hio]
  dsimp only
  rw [hc]
  exact ⟨_, rfl⟩

/-- C1: the modelled retriever — threshold filter, window expansion
`[max(0, i-window), min(n-1, i+window)]`, sort by start, merge of
overlapping or adjacent intervals (`next.start ≤ prev.end + 1`) with max
score and matched-set union — returns pairwise non-overlapping,
non-adjacent intervals (one result per merged group); in particular,
surviving hits at chunk ids 2 (score 0.7) and 8 (score 0.6) with
`window = 4` over 13 chunks merge to the single interval `[0, 12]` with
score `0.7` (the max) and matched set `{2, 8}`. -/
theorem spec_merge_intervals_correct :
    (∀ (n window : Nat) (threshold : ℚ) (hits : List (Nat × ℚ)),
      List.Chain' (fun a b => a.endId + 1 < b.startId)
        (specExpandAndMerge n window threshold hits)) ∧
    specExpandAndMerge 13 4 (1/2) [(2, 7/10), (8, 6/10)] = [⟨0, 12, 7/10, {2, 8}⟩] := by
  constructor
  · intro n window threshold hits
    rw [specExpandAndMerge]
    apply chain'_mergeIntervals
    have hp := @pairwise_sortByLe WindowInterval
      (fun w w' => decide (w.startId ≤ w'.startId))
      (fun a b => by rcases Nat.le_total a.startId b.startId with h | h <;> simp [h])
      (fun a b c hab hbc => by
        simp only [decide_eq_true_eq] at hab hbc ⊢
        omega)
      (((hits.filter fun h => threshold ≤ h.2).map
        fun h => windowInterval n window h.1 h.2))
    exact hp.imp fun h => of_decide_eq_true h
  · decide

/-- C2 counterexample: the document `"Hello world."` is not
whitespace-only, yet both `create_contextual_chunks` with the engine's
configuration and the engine's `_create_chunks` emit zero chunks — the
lone paragraph is below `min_words_per_chunk`, so the claim's "at least
one chunk" and "exactly one chunk" both fail. -/
theorem chunker_drops_short_single_paragraph :
    (pyStrip "Hello world.".toList).isEmpty = false ∧
    create_contextual_chunks "Hello world.".toList 80 10 10 = [] ∧
    ContextSearch._create_chunks "Hello world.".toList = [] := by decide

/-- C2 (amended): the chunker produces at least one chunk for every
document one of whose paragraphs reaches `minWordsPerChunk` words in
total (with a positive `minWordsPerChunk`); a document consisting of a
single paragraph below `minWordsPerChunk` produces zero chunks, not
one. -/
theorem chunker_nonempty_of_big_paragraph (maxW minW ov : Nat) (text : PyText)
    (hmin : 1 ≤ minW) (p : PyText) (hp : p ∈ split_into_paragraphs text)
    (hsum : minW ≤ paraWordSum p) :
    create_contextual_chunks text maxW minW ov ≠ [] := by
  rcases List.append_of_mem hp with ⟨l1, l2, hsplit⟩
  rw [create_contextual_chunks, hsplit, List.foldl_append, List.foldl_cons]
  have h1 : 0 < (processParagraph maxW minW ov
      (l1.foldl (processParagraph maxW minW ov) []) p).length :=
    Nat.lt_of_le_of_lt (Nat.zero_le _)
      (length_processParagraph_lt maxW minW ov _ p hmin hsum)
  have h2 := foldl_processParagraph_mono maxW minW ov l2
      (processParagraph maxW minW ov (l1.foldl (processParagraph maxW minW ov) []) p)
  intro hc
  have h3 := congrArg List.length hc
  simp only [List.length_nil] at h3
  omega

/-- C2 witness: a ten-word single-sentence document reaches
`min_words_per_chunk = 10`, so the chunker emits at least one chunk. -/
theorem chunker_nonempty_of_big_paragraph_witness :
    create_contextual_chunks shortDocTen 80 10 10 ≠ [] :=
  chunker_nonempty_of_big_paragraph 80 10 10 shortDocTen (by decide) shortDocTen
    (by decide) (by decide)

/-- C3 counterexample: for a document argument of unsupported type the
loader does raise `ValueError`, but the constructor catches it and
returns a normal, degraded engine state — the error is absorbed, not
surfaced to the caller, so claiming that "construction fails" is wrong. -/
theorem init_absorbs_invalid_type_error :
    ContextSearch._load_document decodeFail decodeFail .other
      = .error "File content must be string or bytes." ∧
    ContextSearch.init decodeFail decodeFail .other 5 (1/2)
      = ⟨5, 1/2, [], [], none, none⟩ := by decide

/-- C3 (amended): on a document argument of unsupported type,
`_load_document` raises `ValueError`, but `__init__` catches every
exception, logs it, and degrades to an empty document with no chunks
(leaving the `model`/`index` attributes unassigned); construction itself
returns normally and never surfaces the error. -/
theorem init_degrades_on_invalid_type (u p : List Nat → Option PyText)
    (tk : Nat) (th : ℚ) :
    ContextSearch._load_document u p .other
      = .error "File content must be string or bytes." ∧
    ContextSearch.init u p .other tk th = ⟨tk, th, [], [], none, none⟩ :=
  ⟨rfl, rfl⟩

/-- C4 counterexample: a byte sequence that does not decode as UTF-8 does
not make construction fail — PDF extraction is attempted as a fallback,
and when it succeeds the engine is constructed normally from the
extracted text. -/
theorem init_accepts_non_utf8_bytes :
    decodeFail [255] = none ∧
    ContextSearch.init decodeFail pdfYieldsX (.bytes [255]) 5 (1/2)
      = ⟨5, 1/2, ['x'], [], some none, some none⟩ := by decide

/-- C4 (amended): bytes that fail UTF-8 decoding fall back to PDF
extraction; if extraction succeeds, construction succeeds normally with
the extracted text, and if it also fails, the loader's `ValueError` is
absorbed by the constructor into a degraded empty state — construction
never surfaces an invalid-argument error for non-UTF-8 bytes. -/
theorem load_bytes_fallback (u p : List Nat → Option PyText) (b : List Nat)
    (tk : Nat) (th : ℚ) (hu : u b = none) :
    (∀ d, p b = some d → ContextSearch.init u p (.bytes b) tk th
        = ⟨tk, th, d, ContextSearch._create_chunks d, some none, some none⟩) ∧
    (p b = none → ContextSearch.init u p (.bytes b) tk th
        = ⟨tk, th, [], [], none, none⟩) := by
  constructor
  · intro d hd
    have hl : ContextSearch._load_document u p (.bytes b) = .ok d := by
      rw [ContextSearch._load_document, hu, hd]
    rw [ContextSearch.init, hl]
  · intro hd
    have hl : ContextSearch._load_document u p (.bytes b)
        = .error "File content must be UTF-8 text or a readable PDF." := by
      rw [ContextSearch._load_document, hu, hd]
    rw [ContextSearch.init, hl]

/-- C4 witness: non-UTF-8 bytes whose PDF extraction yields `"x"` produce
a normally constructed engine over the extracted text. -/
theorem load_bytes_fallback_witness :
    ContextSearch.init decodeFail pdfYieldsX (.bytes [255]) 5 (1/2)
      = ⟨5, 1/2, ['x'], ContextSearch._create_chunks ['x'], some none, some none⟩ :=
  (load_bytes_fallback decodeFail pdfYieldsX [255] 5 (1/2) rfl).1 ['x'] rfl

/-- C5: after a successful construction (the `model` and `index`
attributes were assigned), `query` never raises — it always returns a
value — and when the embedding backend fails on every call (model
unavailable at batch time) the result degrades to the empty list. -/
theorem query_never_raises (B : Backend) (st : ContextSearch) (q : PyText)
    (tk? : Option Nat) (_hm : st.model ≠ none) (hi : st.index ≠ none) :
    (∃ out, ContextSearch.query B st q tk? = .ok out) ∧
    ((∀ ts, ∃ e, B.encode ts = .error e) →
      ∃ st', ContextSearch.query B st q tk? = .ok ([], st')) :=
  ⟨query_isOk hi, fun henc => query_empty_of_encode_fail hi henc⟩

/-- C5 witness: with a backend whose every encode call raises, the
freshly constructed engine still answers the query with a value, and that
value is the empty result list. -/
theorem query_never_raises_witness :
    (∃ out, ContextSearch.query backendEncodeFail stFresh ['q'] none = .ok out) ∧
    (∃ st', ContextSearch.query backendEncodeFail stFresh ['q'] none = .ok ([], st')) :=
  ⟨(query_never_raises backendEncodeFail stFresh ['q'] none (by decide) (by decide)).1,
   (query_never_raises backendEncodeFail stFresh ['q'] none (by decide) (by decide)).2
     (fun _ => ⟨"boom", rfl⟩)⟩

/-- C6: every successful `query` returns results sorted by descending
score, containing only hits whose score is at least `score_threshold`
(the comparison is `>=`, so equality is kept), with no more results than
the effective `top_k`. -/
theorem query_results_sorted_filtered_bounded (B : Backend) (st : ContextSearch)
    (q : PyText) (tk? : Option Nat) (res : List QueryResult) (st' : ContextSearch)
    (h : ContextSearch.query B st q tk? = .ok (res, st')) :
    res.Pairwise (fun a b => b.score ≤ a.score) ∧
    (∀ r ∈ res, st.score_threshold ≤ r.score) ∧
    res.length ≤ tk?.getD st.top_k := by
  rcases query_ok_inv h with hres | ⟨idx, qv, res0, hch, hcol, hsort⟩
  · subst hres
    exact ⟨List.Pairwise.nil, by simp, by simp⟩
  · subst hsort
    refine ⟨?_, ?_, ?_⟩
    · have hp := @pairwise_sortByLe QueryResult
        (fun r r' => decide (r'.score ≤ r.score))
        (fun a b => by rcases le_total b.score a.score with h' | h' <;> simp [h'])
        (fun a b c hab hbc => by
          simp only [decide_eq_true_eq] at hab hbc ⊢
          exact le_trans hbc hab)
        res0
      exact hp.imp fun h' => of_decide_eq_true h'
    · intro r hr
      exact (collectResults_mem hcol r (mem_sortByLe.mp hr)).1
    · rw [length_sortByLe]
      have h1 := collectResults_length hcol
      rw [length_faissSearch] at h1
      exact h1

/-- C6 witness: a concrete query over a built two-vector index returns
the single hit above the threshold, sorted, with length within `top_k`. -/
theorem query_results_sorted_filtered_bounded_witness :
    (([⟨1, ['a'], 0⟩] : List QueryResult).Pairwise fun a b => b.score ≤ a.score) ∧
    (∀ r ∈ ([⟨1, ['a'], 0⟩] : List QueryResult), stReady.score_threshold ≤ r.score) ∧
    ([⟨1, ['a'], 0⟩] : List QueryResult).length ≤ (none : Option Nat).getD stReady.top_k :=
  query_results_sorted_filtered_bounded backendOnes stReady ['q'] none
    [⟨1, ['a'], 0⟩] stReady (by decide)

/-- C7: whenever `_create_faiss_index` returns an index, and the backend
encodes batches pointwise (one vector per input text, in order), the
built index stores exactly one normalized embedding vector per chunk, in
chunk order; in particular `index.ntotal = chunks.length`. -/
theorem faiss_index_size_eq_chunks (B : Backend) (chunks : List PyText)
    (mAttr m' : Option (Option SModel)) (idx : FaissIndex) (f : PyText → QVec)
    (hf : ∀ b, B.encode b = .ok (b.map f))
    (h : ContextSearch._create_faiss_index B chunks mAttr = (m', some idx)) :
    FaissIndex.ntotal idx = chunks.length ∧
    FaissIndex.vecs idx = chunks.map fun c => B.nrm (f c) := by
  have hv := create_index_vecs hf h
  refine ⟨?_, hv⟩
  rw [FaissIndex.ntotal, hv, List.length_map]

/-- C7 witness: a two-chunk build stores exactly two vectors, one per
chunk in order. -/
theorem faiss_index_size_eq_chunks_witness :
    FaissIndex.ntotal ⟨[[1], [2]]⟩ = ([['a'], ['b', 'b']] : List PyText).length ∧
    FaissIndex.vecs ⟨[[1], [2]]⟩
      = ([['a'], ['b', 'b']] : List PyText).map fun c => backendLen.nrm [(c.length : ℚ)] :=
  faiss_index_size_eq_chunks backendLen [['a'], ['b', 'b']] (some none) (some (some ()))
    ⟨[[1], [2]]⟩ (fun t => [(t.length : ℚ)]) (fun _ => rfl) (by decide)

/-- C8: immediately after a construction whose document load succeeded,
the `model` and `index` fields hold `None` (nothing is materialized);
`_ensure_index` on an already-built index is the identity (cached, no
rebuild); and on a fresh state with a working backend, the first
`_ensure_index` materializes both the model and the index. -/
theorem lazy_init_and_caching :
    (∀ (u p : List Nat → Option PyText) (fc : FileContent) (tk : Nat) (th : ℚ) d,
      ContextSearch._load_document u p fc = .ok d →
      (ContextSearch.init u p fc tk th).model = some none ∧
      (ContextSearch.init u p fc tk th).index = some none) ∧
    (∀ (B : Backend) (st : ContextSearch) (idx : FaissIndex),
      st.index = some (some idx) → ContextSearch._ensure_index B st = .ok st) ∧
    (∀ (B : Backend) (st : ContextSearch) (m : SModel),
      st.index = some none → st.model = some none → ¬st.chunks.isEmpty →
      B.mkModel = .ok m → (∀ ts, ∃ vs, B.encode ts = .ok vs) →
      ∃ idx, ContextSearch._ensure_index B st
        = .ok { st with model := some (some m), index := some (some idx) }) := by
  refine ⟨?_, ?_, ?_⟩
  · intro u p fc tk th d hl
    rw [ContextSearch.init, hl]
    exact ⟨rfl, rfl⟩
  · intro B st idx hio
    rw [ContextSearch._ensure_index, hio]
  · intro B st m hio hmo hch hb henc
    exact ensure_index_builds hio hmo hch hb henc

/-- C8 witness: lazy fields after construction, identity on a built
index, and materialization on the first build with a working backend. -/
theorem lazy_init_and_caching_witness :
    ((ContextSearch.init decodeFail decodeFail (.str ['h']) 5 (1/2)).model = some none ∧
     (ContextSearch.init decodeFail decodeFail (.str ['h']) 5 (1/2)).index = some none) ∧
    ContextSearch._ensure_index backendOnes stReady = .ok stReady ∧
    ∃ idx, ContextSearch._ensure_index backendOnes stFresh
      = .ok { stFresh with model := some (some ()), index := some (some idx) } :=
  ⟨lazy_init_and_caching.1 decodeFail decodeFail (.str ['h']) 5 (1/2) ['h'] rfl,
   lazy_init_and_caching.2.1 backendOnes stReady ⟨[[1], [0]]⟩ (by decide),
   lazy_init_and_caching.2.2 backendOnes stFresh () (by decide) (by decide) (by decide)
     rfl (fun ts => ⟨ts.map fun _ => [1], rfl⟩)⟩

/-- C9: a query whose text is empty or whitespace-only returns the empty
result list immediately with the engine state unchanged — the embedder is
never invoked and the `model`/`index` fields keep their values (still
`None` when nothing has been built). -/
theorem blank_query_returns_empty_unchanged (B : Backend) (st : ContextSearch)
    (q : PyText) (tk? : Option Nat) (hq : (pyStrip q).isEmpty) :
    ContextSearch.query B st q tk? = .ok ([], st) := by
  rw [ContextSearch.query, if_pos hq]

/-- C9 witness: a whitespace-only query against a fresh engine returns
empty with the state (including the unbuilt model and index) unchanged. -/
theorem blank_query_returns_empty_unchanged_witness :
    ContextSearch.query backendOnes stFresh [' ', '\t'] none = .ok ([], stFresh) :=
  blank_query_returns_empty_unchanged backendOnes stFresh [' ', '\t'] none (by decide)

/-- C10 counterexample: with `top_k = 2` over a one-vector index and
`score_threshold = -FLT_MAX`, the faiss padding hit `(-FLT_MAX, -1)`
passes the `score >= threshold` filter and the sentinel `-1` is returned
as the index of a result (Python's negative indexing silently resolves it
to the last chunk) — refuting the claim that `-1` never appears. -/
theorem padding_sentinel_reaches_results :
    Except.map (fun out => out.1.map QueryResult.index)
      (ContextSearch.query backendOnes stLowTh ['q'] none) = .ok [0, -1] := by decide

/-- C10 (amended): provided `score_threshold` exceeds the faiss padding
score `-FLT_MAX` (true of any threshold in the cosine range), every
returned result of a successful query carries a valid chunk index:
`0 ≤ index < len(chunks)` and the result's chunk equals `chunks[index]`;
in particular the padding sentinel `-1` never appears. -/
theorem query_result_indices_valid (B : Backend) (st : ContextSearch) (q : PyText)
    (tk? : Option Nat) (res : List QueryResult) (st' : ContextSearch)
    (hth : -FLT_MAX < st.score_threshold)
    (h : ContextSearch.query B st q tk? = .ok (res, st')) :
    ∀ r ∈ res, 0 ≤ r.index ∧ r.index.toNat < st.chunks.length ∧
      st.chunks.get? r.index.toNat = some r.chunk := by
  rcases query_ok_inv h with hres | ⟨idx, qv, res0, hch, hcol, hsort⟩
  · subst hres
    intro r hr
    cases hr
  · subst hsort
    intro r hr
    rcases collectResults_mem hcol r (mem_sortByLe.mp hr) with
      ⟨hscore, p, hp, hps, hpi, hpg⟩
    rcases mem_faissSearch hp with ⟨hpos, _⟩ | ⟨hpad, _⟩
    · have hg : st.chunks.get? r.index.toNat = some r.chunk := by
        rw [← hpi]
        rw [pyGet, if_pos hpos] at hpg
        exact hpg
      have hlt2 : r.index.toNat < st.chunks.length := by
        rcases List.get?_eq_some.mp hg with ⟨hl, _⟩
        exact hl
      exact ⟨hpi ▸ hpos, hlt2, hg⟩
    · rw [hpad] at hps
      rw [← hps] at hscore
      exact absurd hscore (not_le.mpr hth)

/-- C10 witness: the single result of a concrete query over a built index
with threshold `1/2` has index `0`, in bounds, with its chunk equal to
`chunks[0]`. -/
theorem query_result_indices_valid_witness :
    0 ≤ (⟨1, ['a'], 0⟩ : QueryResult).index ∧
    (⟨1, ['a'], 0⟩ : QueryResult).index.toNat < stReady.chunks.length ∧
    stReady.chunks.get? (⟨1, ['a'], 0⟩ : QueryResult).index.toNat
      = some (⟨1, ['a'], 0⟩ : QueryResult).chunk :=
  query_result_indices_valid backendOnes stReady ['q'] none [⟨1, ['a'], 0⟩] stReady
    (by decide) (by decide) ⟨1, ['a'], 0⟩ (by decide)
